import Mathlib

/-!
Shallow embedding of `src/main.py` of jonesjacklewis/pythonAnagramFinder.

Words and signatures are lists of characters (Python strings are sequences
of codepoints, and `sorted` on characters is codepoint order, which is the
order on `Char`).  A Python `Dict[str, List[str]]` with its insertion order
is embedded as an association list with pairwise-distinct keys, in insertion
order.  Fallible code (Python `max` raising `ValueError` on an empty
sequence) returns `Option`.  Time is embedded as rational seconds.
-/

/-- A Python string: a sequence of characters. -/
abbrev PyStr := List Char

/-- A Python `Dict[str, List[str]]` in insertion order. -/
abbrev Grouping := List (PyStr × List PyStr)

/-- Python `convert_to_standard_form(word)`: `"".join(sorted(word))`, i.e. the
characters of the word sorted by codepoint. -/
def convert_to_standard_form (word : PyStr) : PyStr :=
  List.insertionSort (· ≤ ·) word

/-- One iteration of the loop body of `find_anagrams`: if `standard_form` is
already a key of the dict, append `word` at the end of its list; otherwise add
a new entry `standard_form ↦ [word]` (at the end, as Python dicts preserve
insertion order). -/
def addWord : Grouping → PyStr → PyStr → Grouping
  | [], standard_form, word => [(standard_form, [word])]
  | (k, ws) :: rest, standard_form, word =>
    if k = standard_form then (k, ws ++ [word]) :: rest
    else (k, ws) :: addWord rest standard_form word

/-- Python `find_anagrams(word_list)`: fold the words in input order into the dict,
keying each word by its standard form. -/
def find_anagrams (word_list : List PyStr) : Grouping :=
  word_list.foldl (fun d word => addWord d (convert_to_standard_form word) word) []

/-- Python `max` over a list: `none` on the empty list (where Python raises
`ValueError`), otherwise the greatest element. -/
def listMax : List Nat → Option Nat
  | [] => none
  | x :: xs => some (xs.foldl Nat.max x)

/-- Python `filter_anagrams_by_number(anagrams, min_count=2)`: keep the entries whose
word list has length `≥ min_count` (a Python `int`, hence `ℤ`). -/
def filter_anagrams_by_number (anagrams : Grouping) (min_count : ℤ := 2) : Grouping :=
  anagrams.filter (fun p => min_count ≤ (p.2.length : ℤ))

/-- Python `get_most_anagram(anagrams)`: `max(len(v) for v in anagrams.values())`,
then the entries whose list has exactly that length.  `none` when the dict is
empty (Python's `max` raises). -/
def get_most_anagram (anagrams : Grouping) : Option Grouping :=
  match listMax (anagrams.map (fun p => p.2.length)) with
  | none => none
  | some most_anagrams =>
    some (anagrams.filter (fun p => p.2.length = most_anagrams))

/-- Python `get_longest_anagram(anagrams)`:
`max(len(word) for word in anagrams.keys() if len(anagrams[word]) > 1)` (for a
dict, `anagrams[word]` is the value paired with the key), then the entries with
a key of exactly that length and a list of more than one word.  `none` when no
entry has more than one word (Python's `max` raises on the empty generator). -/
def get_longest_anagram (anagrams : Grouping) : Option Grouping :=
  match listMax ((anagrams.filter (fun p => 1 < p.2.length)).map
      (fun p => p.1.length)) with
  | none => none
  | some longest_word_length =>
    some (anagrams.filter
      (fun p => p.1.length = longest_word_length ∧ 1 < p.2.length))

/- ### Facts about `listMax` -/

theorem foldl_max_le_iff (xs : List Nat) (a m : Nat) :
    xs.foldl Nat.max a ≤ m ↔ a ≤ m ∧ ∀ x ∈ xs, x ≤ m := by
  induction xs generalizing a with
  | nil => simp
  | cons x xs ih =>
    simp only [List.foldl_cons, ih, Nat.max_le, List.mem_cons]
    constructor
    · rintro ⟨⟨ha, hx⟩, h⟩
      exact ⟨ha, fun y hy => hy.elim (fun e => e ▸ hx) (h y)⟩
    · rintro ⟨ha, h⟩
      exact ⟨⟨ha, h x (Or.inl rfl)⟩, fun y hy => h y (Or.inr hy)⟩

theorem foldl_max_mem (xs : List Nat) (a : Nat) :
    xs.foldl Nat.max a = a ∨ xs.foldl Nat.max a ∈ xs := by
  induction xs generalizing a with
  | nil => exact Or.inl rfl
  | cons x xs ih =>
    simp only [List.foldl_cons]
    rcases ih (Nat.max a x) with h | h
    · rw [h]
      have hax : Nat.max a x = a ∨ Nat.max a x = x := max_choice a x
      rcases hax with h' | h'
      · exact Or.inl h'
      · rw [h']
        exact Or.inr (List.mem_cons_self x xs)
    · exact Or.inr (List.mem_cons_of_mem x h)

theorem listMax_spec (xs : List Nat) (m : Nat) (h : listMax xs = some m) :
    m ∈ xs ∧ ∀ x ∈ xs, x ≤ m := by
  match xs with
  | [] => simp [listMax] at h
  | x :: rest =>
    simp only [listMax, Option.some.injEq] at h
    subst h
    refine ⟨?_, ?_⟩
    · rcases foldl_max_mem rest x with h | h
      · rw [h]
        exact List.mem_cons_self x rest
      · exact List.mem_cons_of_mem x h
    · intro y hy
      have := (foldl_max_le_iff rest x (rest.foldl Nat.max x)).mp le_rfl
      rcases List.mem_cons.mp hy with e | hmem
      · exact e ▸ this.1
      · exact this.2 y hmem

theorem listMax_eq_none_iff (xs : List Nat) : listMax xs = none ↔ xs = [] := by
  cases xs <;> simp [listMax]

/- ### Claim C6 and C9: the canonicalizer -/

theorem convert_perm (w : PyStr) : List.Perm (convert_to_standard_form w) w :=
  List.perm_insertionSort _ w

theorem convert_sorted (w : PyStr) :
    List.Sorted (· ≤ ·) (convert_to_standard_form w) :=
  List.sorted_insertionSort _ w

theorem convert_eq_of_perm {a b : PyStr} (h : List.Perm a b) :
    convert_to_standard_form a = convert_to_standard_form b :=
  List.eq_of_perm_of_sorted
    (((convert_perm a).trans h).trans (convert_perm b).symm)
    (convert_sorted a) (convert_sorted b)

/-- C6: two words have equal standard forms iff they have the same multiset of
characters (case-sensitive — no case folding appears in the definition);
moreover `convert_to_standard_form w` has the same character multiset as `w`,
arranged in the fixed (codepoint) total order, and the empty string maps to
the empty signature. -/
theorem convert_to_standard_form_ok :
    (∀ a b : PyStr,
      convert_to_standard_form a = convert_to_standard_form b ↔
        (a : Multiset Char) = (b : Multiset Char)) ∧
    (∀ w : PyStr,
      ((convert_to_standard_form w : PyStr) : Multiset Char) = (w : Multiset Char) ∧
      List.Sorted (· ≤ ·) (convert_to_standard_form w)) ∧
    convert_to_standard_form [] = [] := by
  refine ⟨fun a b => ?_, fun w => ⟨?_, convert_sorted w⟩, rfl⟩
  · constructor
    · intro h
      exact Quot.sound (((convert_perm a).symm.trans (h ▸ convert_perm b)))
    · intro h
      exact convert_eq_of_perm (Quotient.exact h)
  · exact Quot.sound (convert_perm w)

/-- C9: the canonicalizer is idempotent on its own output. -/
theorem convert_to_standard_form_idem (w : PyStr) :
    convert_to_standard_form (convert_to_standard_form w) =
      convert_to_standard_form w :=
  List.eq_of_perm_of_sorted (convert_perm _) (convert_sorted _) (convert_sorted w)

/- ### Facts about membership in the filtered results -/

theorem mem_map_lengths {α β : Type} {f : α → β} {l : List α} {m : β}
    (h : m ∈ l.map f) : ∃ p ∈ l, f p = m := by
  rcases List.mem_map.mp h with ⟨p, hp, he⟩
  exact ⟨p, hp, he⟩

/-- C1: on a non-empty dict, `get_most_anagram` succeeds and returns exactly
the entries of maximal list length (the maximum being taken over ALL entries,
singletons included); every entry left out has strictly smaller length, and
when every entry is a singleton the whole dict is returned, not an error. -/
theorem get_most_anagram_ok (g : Grouping) (h : g ≠ []) :
    ∃ r, get_most_anagram g = some r ∧
      (∀ p, p ∈ r ↔ (p ∈ g ∧ ∀ q ∈ g, q.2.length ≤ p.2.length)) ∧
      (∀ q ∈ g, q ∉ r → ∀ p ∈ r, q.2.length < p.2.length) ∧
      ((∀ p ∈ g, p.2.length = 1) → r = g) := by
  have hne : g.map (fun p => p.2.length) ≠ [] := by
    simpa using h
  obtain ⟨m, hm⟩ : ∃ m, listMax (g.map (fun p => p.2.length)) = some m := by
    cases he : listMax (g.map (fun p => p.2.length)) with
    | none => exact absurd ((listMax_eq_none_iff _).mp he) hne
    | some m => exact ⟨m, rfl⟩
  obtain ⟨hmem, hub⟩ := listMax_spec _ _ hm
  obtain ⟨p₀, hp₀, hp₀m⟩ := mem_map_lengths hmem
  have hub' : ∀ q ∈ g, q.2.length ≤ m := fun q hq =>
    hub _ (List.mem_map.mpr ⟨q, hq, rfl⟩)
  have hr : get_most_anagram g = some (g.filter (fun p => p.2.length = m)) := by
    simp [get_most_anagram, hm]
  have hmemr : ∀ p, p ∈ g.filter (fun p => p.2.length = m) ↔
      (p ∈ g ∧ p.2.length = m) := by
    intro p
    simp [List.mem_filter]
  refine ⟨g.filter (fun p => p.2.length = m), hr, fun p => ?_, ?_, ?_⟩
  · rw [hmemr]
    constructor
    · rintro ⟨hp, hl⟩
      exact ⟨hp, fun q hq => hl ▸ hub' q hq⟩
    · rintro ⟨hp, hmax⟩
      exact ⟨hp, le_antisymm (hub' p hp) (hp₀m ▸ hmax p₀ hp₀)⟩
  · intro q hq hqr p hp
    rw [hmemr] at hp hqr
    have : q.2.length ≠ m := fun e => hqr ⟨hq, e⟩
    exact lt_of_le_of_ne (hp.2 ▸ hub' q hq) (hp.2 ▸ this)
  · intro hall
    have hm1 : m = 1 := by
      rw [← hp₀m]
      exact hall p₀ hp₀
    refine List.filter_eq_self.mpr (fun p hp => ?_)
    simp [hall p hp, hm1]

/-- C10: whenever a selector does not fail its result is non-empty: on a
non-empty dict `get_most_anagram` returns at least one entry, and on a dict
with an entry of more than one word `get_longest_anagram` returns at least
one entry. -/
theorem selectors_nonempty (g : Grouping) :
    (g ≠ [] → ∃ r, get_most_anagram g = some r ∧ r ≠ []) ∧
    ((∃ p ∈ g, 1 < p.2.length) →
      ∃ r, get_longest_anagram g = some r ∧ r ≠ []) := by
  constructor
  · intro h
    have hne : g.map (fun p => p.2.length) ≠ [] := by simpa using h
    obtain ⟨m, hm⟩ : ∃ m, listMax (g.map (fun p => p.2.length)) = some m := by
      cases he : listMax (g.map (fun p => p.2.length)) with
      | none => exact absurd ((listMax_eq_none_iff _).mp he) hne
      | some m => exact ⟨m, rfl⟩
    obtain ⟨hmem, _⟩ := listMax_spec _ _ hm
    obtain ⟨p₀, hp₀, hp₀m⟩ := mem_map_lengths hmem
    refine ⟨g.filter (fun p => p.2.length = m), by simp [get_most_anagram, hm], ?_⟩
    have : p₀ ∈ g.filter (fun p => p.2.length = m) := by
      simp [List.mem_filter, hp₀, hp₀m]
    exact List.ne_nil_of_mem this
  · intro h
    obtain ⟨p₁, hp₁, hl₁⟩ := h
    have hq₁ : p₁ ∈ g.filter (fun p => 1 < p.2.length) := by
      simp [List.mem_filter, hp₁, hl₁]
    have hne : (g.filter (fun p => 1 < p.2.length)).map (fun p => p.1.length) ≠ [] := by
      simp only [ne_eq, List.map_eq_nil_iff]
      exact fun e => by simp [e] at hq₁
    obtain ⟨m, hm⟩ : ∃ m, listMax ((g.filter (fun p => 1 < p.2.length)).map
        (fun p => p.1.length)) = some m := by
      cases he : listMax ((g.filter (fun p => 1 < p.2.length)).map
          (fun p => p.1.length)) with
      | none => exact absurd ((listMax_eq_none_iff _).mp he) hne
      | some m => exact ⟨m, rfl⟩
    obtain ⟨hmem, _⟩ := listMax_spec _ _ hm
    obtain ⟨p₀, hp₀, hp₀m⟩ := mem_map_lengths hmem
    rw [List.mem_filter] at hp₀
    refine ⟨g.filter (fun p => p.1.length = m ∧ 1 < p.2.length),
      by simp [get_longest_anagram, hm], ?_⟩
    have : p₀ ∈ g.filter (fun p => p.1.length = m ∧ 1 < p.2.length) := by
      have h1 : 1 < p₀.2.length := by simpa using hp₀.2
      simp [List.mem_filter, hp₀.1, hp₀m, h1]
    exact List.ne_nil_of_mem this

/-- C2: on a dict with at least one entry of more than one word,
`get_longest_anagram` succeeds and returns exactly the entries that have more
than one word and whose key length is maximal among the entries with more
than one word. -/
theorem get_longest_anagram_ok (g : Grouping)
    (h : ∃ p ∈ g, 1 < p.2.length) :
    ∃ r, get_longest_anagram g = some r ∧
      (∀ p, p ∈ r ↔ (p ∈ g ∧ 1 < p.2.length ∧
        ∀ q ∈ g, 1 < q.2.length → q.1.length ≤ p.1.length)) := by
  obtain ⟨p₁, hp₁, hl₁⟩ := h
  have hq₁ : p₁ ∈ g.filter (fun p => 1 < p.2.length) := by
    simp [List.mem_filter, hp₁, hl₁]
  have hne : (g.filter (fun p => 1 < p.2.length)).map (fun p => p.1.length) ≠ [] := by
    simp only [ne_eq, List.map_eq_nil_iff]
    exact fun e => by simp [e] at hq₁
  obtain ⟨m, hm⟩ : ∃ m, listMax ((g.filter (fun p => 1 < p.2.length)).map
      (fun p => p.1.length)) = some m := by
    cases he : listMax ((g.filter (fun p => 1 < p.2.length)).map
        (fun p => p.1.length)) with
    | none => exact absurd ((listMax_eq_none_iff _).mp he) hne
    | some m => exact ⟨m, rfl⟩
  obtain ⟨hmem, hub⟩ := listMax_spec _ _ hm
  obtain ⟨p₀, hp₀, hp₀m⟩ := mem_map_lengths hmem
  rw [List.mem_filter] at hp₀
  have hp₀g : p₀ ∈ g := hp₀.1
  have hp₀l : 1 < p₀.2.length := by simpa using hp₀.2
  have hub' : ∀ q ∈ g, 1 < q.2.length → q.1.length ≤ m := by
    intro q hq hql
    refine hub _ (List.mem_map.mpr ⟨q, ?_, rfl⟩)
    simp [List.mem_filter, hq, hql]
  refine ⟨g.filter (fun p => p.1.length = m ∧ 1 < p.2.length),
    by simp [get_longest_anagram, hm], fun p => ?_⟩
  rw [List.mem_filter]
  simp only [decide_eq_true_eq]
  constructor
  · rintro ⟨hp, he, hl⟩
    exact ⟨hp, hl, fun q hq hql => he ▸ hub' q hq hql⟩
  · rintro ⟨hp, hl, hmax⟩
    refine ⟨hp, le_antisymm (hub' p hp hl) ?_, hl⟩
    exact hp₀m ▸ hmax p₀ hp₀g hp₀l

/-- C2 witness: a concrete dict with an entry of two words. -/
theorem get_longest_anagram_ok_witness :
    ∃ r, get_longest_anagram [(['a'], [['a'], ['a']])] = some r ∧
      (∀ p, p ∈ r ↔ (p ∈ [(['a'], [['a'], ['a']])] ∧ 1 < p.2.length ∧
        ∀ q ∈ [(['a'], [['a'], ['a']])], 1 < q.2.length →
          q.1.length ≤ p.1.length)) :=
  get_longest_anagram_ok [(['a'], [['a'], ['a']])] (by decide)

/-- C1 witness: a concrete non-empty dict. -/
theorem get_most_anagram_ok_witness :
    ∃ r, get_most_anagram [(['a'], [['a']])] = some r ∧
      (∀ p, p ∈ r ↔ (p ∈ [(['a'], [['a']])] ∧
        ∀ q ∈ [(['a'], [['a']])], q.2.length ≤ p.2.length)) ∧
      (∀ q ∈ [(['a'], [['a']])], q ∉ r → ∀ p ∈ r, q.2.length < p.2.length) ∧
      ((∀ p ∈ [(['a'], [['a']])], p.2.length = 1) → r = [(['a'], [['a']])]) :=
  get_most_anagram_ok [(['a'], [['a']])] (by decide)

/-- C3: each selector fails exactly when its maximization domain is empty:
`get_most_anagram` returns `none` iff the dict has no entries, and
`get_longest_anagram` returns `none` iff no entry has more than one word; on
every other input they return `some` result. -/
theorem selectors_fail_iff (g : Grouping) :
    (get_most_anagram g = none ↔ g = []) ∧
    (get_longest_anagram g = none ↔ ∀ p ∈ g, p.2.length ≤ 1) := by
  constructor
  · cases hm : listMax (g.map (fun p => p.2.length)) with
    | none =>
      simp only [get_most_anagram, hm]
      simpa using (listMax_eq_none_iff _).mp hm
    | some m =>
      simp only [get_most_anagram, hm]
      have : g.map (fun p => p.2.length) ≠ [] := by
        intro e
        rw [e] at hm
        simp [listMax] at hm
      constructor
      · intro e
        exact absurd e (by simp)
      · intro e
        exact absurd (by simpa using e) this
  · cases hm : listMax ((g.filter (fun p => 1 < p.2.length)).map
        (fun p => p.1.length)) with
    | none =>
      simp only [get_longest_anagram, hm]
      have h1 := (listMax_eq_none_iff _).mp hm
      simp only [List.map_eq_nil_iff, List.filter_eq_nil_iff] at h1
      constructor
      · intro _ p hp
        have := h1 p hp
        simpa [Nat.not_lt] using this
      · intro _
        trivial
    | some m =>
      simp only [get_longest_anagram, hm]
      have hne : (g.filter (fun p => 1 < p.2.length)).map (fun p => p.1.length) ≠ [] := by
        intro e
        rw [e] at hm
        simp [listMax] at hm
      constructor
      · intro e
        exact absurd e (by simp)
      · intro hall
        refine absurd ?_ hne
        simp only [List.map_eq_nil_iff, List.filter_eq_nil_iff]
        intro p hp
        simpa [Nat.not_lt] using hall p hp

/-- C8: the filter `filter_anagrams_by_number` keeps exactly the entries with at least
`min_count` words; with `min_count = 1` it returns a dict of non-empty entries
unchanged, and when no entry qualifies it returns the empty dict rather than
failing. -/
theorem filter_anagrams_by_number_ok (g : Grouping) :
    ((∀ p ∈ g, p.2 ≠ []) → filter_anagrams_by_number g 1 = g) ∧
    (∀ min_count : ℤ, ∀ p, p ∈ filter_anagrams_by_number g min_count ↔
      (p ∈ g ∧ min_count ≤ (p.2.length : ℤ))) ∧
    (∀ min_count : ℤ, (∀ p ∈ g, ¬ min_count ≤ (p.2.length : ℤ)) →
      filter_anagrams_by_number g min_count = []) := by
  refine ⟨?_, ?_, ?_⟩
  · intro hall
    refine List.filter_eq_self.mpr (fun p hp => ?_)
    have : p.2.length ≠ 0 := by
      simpa [List.length_eq_zero] using hall p hp
    simp only [decide_eq_true_eq]
    omega
  · intro c p
    simp [filter_anagrams_by_number, List.mem_filter]
  · intro c hall
    refine List.filter_eq_nil_iff.mpr (fun p hp => ?_)
    simpa using hall p hp

/- ### Claim C4: `find_anagrams` partitions its input -/

/-- The invariant linking the dict built so far to the words already
processed: keys are pairwise distinct, each entry's list is exactly the
sublist of processed words with that standard form (hence in first-seen input
order), every processed word's standard form is a key, and every key arose
from some processed word. -/
def GroupsOf (processed : List PyStr) (d : Grouping) : Prop :=
  (d.map (fun p => p.1)).Nodup ∧
  (∀ p ∈ d, p.2 = processed.filter (fun w => convert_to_standard_form w = p.1)) ∧
  (∀ w ∈ processed, convert_to_standard_form w ∈ d.map (fun p => p.1)) ∧
  (∀ p ∈ d, ∃ w ∈ processed, convert_to_standard_form w = p.1)

theorem addWord_keys (d : Grouping) (k w : PyStr) :
    (addWord d k w).map (fun p => p.1) =
      if k ∈ d.map (fun p => p.1) then d.map (fun p => p.1)
      else d.map (fun p => p.1) ++ [k] := by
  induction d with
  | nil => simp [addWord]
  | cons q rest ih =>
    obtain ⟨k', ws⟩ := q
    by_cases h : k' = k
    · subst h
      simp [addWord]
    · have h' : ¬ k = k' := fun e => h e.symm
      simp only [addWord, if_neg h, List.map_cons, ih, List.mem_cons, h', false_or]
      by_cases h2 : k ∈ rest.map (fun p => p.1) <;> simp [h2]

theorem addWord_mem_iff (d : Grouping) (k w : PyStr)
    (hnd : (d.map (fun p => p.1)).Nodup) (p : PyStr × List PyStr) :
    p ∈ addWord d k w ↔
      ((p ∈ d ∧ p.1 ≠ k) ∨
       (∃ ws, (k, ws) ∈ d ∧ p = (k, ws ++ [w])) ∨
       (k ∉ d.map (fun p => p.1) ∧ p = (k, [w]))) := by
  induction d with
  | nil => simp [addWord]
  | cons q rest ih =>
    obtain ⟨k', ws'⟩ := q
    simp only [List.map_cons, List.nodup_cons] at hnd
    by_cases h : k' = k
    · subst h
      simp only [addWord, if_pos rfl]
      constructor
      · intro hp
        rcases List.mem_cons.mp hp with e | hrest
        · exact Or.inr (Or.inl ⟨ws', List.mem_cons_self _ _, e⟩)
        · refine Or.inl ⟨List.mem_cons_of_mem _ hrest, fun e => ?_⟩
          exact hnd.1 (List.mem_map.mpr ⟨p, hrest, e⟩)
      · rintro (⟨hp, hne⟩ | ⟨ws₀, hmem, he⟩ | ⟨hnk, he⟩)
        · rcases List.mem_cons.mp hp with e | hrest
          · exact absurd (congrArg Prod.fst e) hne
          · exact List.mem_cons_of_mem _ hrest
        · rcases List.mem_cons.mp hmem with e | hrest
          · have hws : ws₀ = ws' := (Prod.mk.injEq _ _ _ _ ▸ e).2
            subst hws
            exact he ▸ List.mem_cons_self _ _
          · exact absurd (List.mem_map.mpr ⟨(k', ws₀), hrest, rfl⟩) hnd.1
        · exact absurd (by simp : k' ∈ ((k', ws') :: rest).map (fun p => p.1)) hnk
    · have h' : ¬ k = k' := fun e => h e.symm
      simp only [addWord, if_neg h]
      have ihr := ih hnd.2
      constructor
      · intro hp
        rcases List.mem_cons.mp hp with e | hrest
        · refine Or.inl ⟨e ▸ List.mem_cons_self _ _, ?_⟩
          rw [e]
          exact h
        · rcases ihr.mp hrest with ⟨hm, hne⟩ | ⟨ws₀, hm, he⟩ | ⟨hnk, he⟩
          · exact Or.inl ⟨List.mem_cons_of_mem _ hm, hne⟩
          · exact Or.inr (Or.inl ⟨ws₀, List.mem_cons_of_mem _ hm, he⟩)
          · refine Or.inr (Or.inr ⟨?_, he⟩)
            simp only [List.map_cons, List.mem_cons]
            rintro (e | hmk)
            · exact h' e
            · exact hnk hmk
      · rintro (⟨hp, hne⟩ | ⟨ws₀, hmem, he⟩ | ⟨hnk, he⟩)
        · rcases List.mem_cons.mp hp with e | hrest
          · exact e ▸ List.mem_cons_self _ _
          · exact List.mem_cons_of_mem _ (ihr.mpr (Or.inl ⟨hrest, hne⟩))
        · rcases List.mem_cons.mp hmem with e | hrest
          · have ek : k = k' := congrArg Prod.fst e
            exact absurd ek h'
          · exact List.mem_cons_of_mem _
              (ihr.mpr (Or.inr (Or.inl ⟨ws₀, hrest, he⟩)))
        · have hnk' : k ∉ rest.map (fun p => p.1) := by
            simp only [List.map_cons, List.mem_cons] at hnk
            exact fun hm => hnk (Or.inr hm)
          exact List.mem_cons_of_mem _ (ihr.mpr (Or.inr (Or.inr ⟨hnk', he⟩)))

theorem GroupsOf_addWord (processed : List PyStr) (d : Grouping) (w : PyStr)
    (h : GroupsOf processed d) :
    GroupsOf (processed ++ [w]) (addWord d (convert_to_standard_form w) w) := by
  obtain ⟨hnd, hfilt, hcov, horig⟩ := h
  refine ⟨?_, ?_, ?_, ?_⟩
  · rw [addWord_keys]
    by_cases hm : convert_to_standard_form w ∈ d.map (fun p => p.1)
    · simpa [hm] using hnd
    · simp only [if_neg hm]
      simp [List.nodup_append, hnd, hm]
  · intro p hp
    rcases (addWord_mem_iff d (convert_to_standard_form w) w hnd p).mp hp with
      ⟨hm, hne⟩ | ⟨ws₀, hm, he⟩ | ⟨hnk, he⟩
    · rw [List.filter_append, hfilt p hm]
      have hwp : ¬ (convert_to_standard_form w = p.1) := fun e => hne e.symm
      simp [List.filter_cons, hwp]
    · have hk : p.1 = convert_to_standard_form w := by rw [he]
      have hv : p.2 = ws₀ ++ [w] := by rw [he]
      have hws : ws₀ = processed.filter
          (fun w' => convert_to_standard_form w' = convert_to_standard_form w) := by
        simpa using hfilt (convert_to_standard_form w, ws₀) hm
      rw [List.filter_append, hv, hk, hws]
      simp [List.filter_cons]
    · have hk : p.1 = convert_to_standard_form w := by rw [he]
      have hv : p.2 = [w] := by rw [he]
      have hempty : processed.filter
          (fun w' => convert_to_standard_form w' = convert_to_standard_form w) = [] := by
        refine List.filter_eq_nil_iff.mpr (fun w' hw' => ?_)
        simp only [decide_eq_true_eq]
        intro e
        exact hnk (e ▸ hcov w' hw')
      rw [List.filter_append, hv, hk, hempty]
      simp [List.filter_cons]
  · intro w' hw'
    rw [addWord_keys]
    rcases List.mem_append.mp hw' with hmem | hmem
    · by_cases hm : convert_to_standard_form w ∈ d.map (fun p => p.1)
      · simpa [hm] using hcov w' hmem
      · simp only [if_neg hm]
        exact List.mem_append_left _ (hcov w' hmem)
    · have e : w' = w := by simpa using hmem
      subst e
      by_cases hm : convert_to_standard_form w' ∈ d.map (fun p => p.1)
      · simp [hm]
      · simp [if_neg hm]
  · intro p hp
    rcases (addWord_mem_iff d (convert_to_standard_form w) w hnd p).mp hp with
      ⟨hm, _⟩ | ⟨ws₀, _, he⟩ | ⟨_, he⟩
    · obtain ⟨w', hw', e⟩ := horig p hm
      exact ⟨w', List.mem_append_left _ hw', e⟩
    · refine ⟨w, List.mem_append_right _ (by simp), ?_⟩
      rw [he]
    · refine ⟨w, List.mem_append_right _ (by simp), ?_⟩
      rw [he]

theorem GroupsOf_foldl (L : List PyStr) :
    ∀ (processed : List PyStr) (d : Grouping), GroupsOf processed d →
      GroupsOf (processed ++ L)
        (L.foldl (fun d w => addWord d (convert_to_standard_form w) w) d) := by
  induction L with
  | nil =>
    intro processed d h
    simpa using h
  | cons w L ih =>
    intro processed d h
    simp only [List.foldl_cons]
    have h2 := ih (processed ++ [w]) _ (GroupsOf_addWord processed d w h)
    rw [List.append_assoc, List.singleton_append] at h2
    exact h2

theorem find_anagrams_GroupsOf (L : List PyStr) :
    GroupsOf L (find_anagrams L) := by
  have h := GroupsOf_foldl L [] [] ⟨by simp, by simp, by simp, by simp⟩
  simpa [find_anagrams] using h

theorem addWord_total_length (d : Grouping) (k w : PyStr) :
    ((addWord d k w).map (fun p => p.2.length)).sum =
      (d.map (fun p => p.2.length)).sum + 1 := by
  induction d with
  | nil => simp [addWord]
  | cons q rest ih =>
    obtain ⟨k', ws'⟩ := q
    by_cases h : k' = k
    · simp only [addWord, if_pos h, List.map_cons, List.sum_cons]
      simp only [List.length_append, List.length_cons, List.length_nil]
      omega
    · simp only [addWord, if_neg h, List.map_cons, List.sum_cons, ih]
      omega

theorem find_anagrams_total_length (L : List PyStr) :
    ((find_anagrams L).map (fun p => p.2.length)).sum = L.length := by
  suffices h : ∀ (d : Grouping),
      ((L.foldl (fun d w => addWord d (convert_to_standard_form w) w) d).map
        (fun p => p.2.length)).sum = (d.map (fun p => p.2.length)).sum + L.length by
    simpa [find_anagrams] using h []
  induction L with
  | nil => simp
  | cons w L ih =>
    intro d
    simp only [List.foldl_cons, ih, addWord_total_length, List.length_cons]
    omega

/-- C4: `find_anagrams` partitions its input: every input word lies in exactly
one entry; the total member count over entries is the input length; every word
of an entry has that entry's key as its standard form; no entry is empty; and
each entry's list is exactly the sublist of the input with that key, in
first-seen input order. -/
theorem find_anagrams_partition (L : List PyStr) :
    (∀ w ∈ L, ∃! p, p ∈ find_anagrams L ∧ w ∈ p.2) ∧
    ((find_anagrams L).map (fun p => p.2.length)).sum = L.length ∧
    (∀ p ∈ find_anagrams L, ∀ w ∈ p.2, convert_to_standard_form w = p.1) ∧
    (∀ p ∈ find_anagrams L, p.2 ≠ []) ∧
    (∀ p ∈ find_anagrams L, p.2 =
      L.filter (fun w => convert_to_standard_form w = p.1)) := by
  obtain ⟨hnd, hfilt, hcov, horig⟩ := find_anagrams_GroupsOf L
  refine ⟨?_, find_anagrams_total_length L, ?_, ?_, hfilt⟩
  · intro w hw
    obtain ⟨p, hp, hpk⟩ := mem_map_lengths (hcov w hw)
    refine ⟨p, ⟨hp, ?_⟩, ?_⟩
    · rw [hfilt p hp]
      exact List.mem_filter.mpr ⟨hw, by simp [hpk]⟩
    · rintro q ⟨hq, hwq⟩
      have hqk : convert_to_standard_form w = q.1 := by
        rw [hfilt q hq] at hwq
        simpa using (List.mem_filter.mp hwq).2
      exact List.inj_on_of_nodup_map hnd hq hp (by rw [← hqk, hpk])
  · intro p hp w hw
    rw [hfilt p hp] at hw
    simpa using (List.mem_filter.mp hw).2
  · intro p hp
    obtain ⟨w, hw, he⟩ := horig p hp
    have hmem : w ∈ L.filter (fun w' => convert_to_standard_form w' = p.1) :=
      List.mem_filter.mpr ⟨hw, by simp [he]⟩
    rw [hfilt p hp]
    exact List.ne_nil_of_mem hmem

/- ### Claim C5: the cache freshness check -/

/-- Seconds per day: `timedelta(days=1)` in seconds. -/
def secondsPerDay : ℚ := 86400

/-- Python `check_if_file_newer_than_x_days(path, max_days_old=7)` over an abstract
file system: whether the path exists, its last-modification time `mtime`, and
the current time `now`, in exact seconds.  Returns `False` for a missing path
(`not os.path.exists`), otherwise whether
`datetime.fromtimestamp(mtime) + timedelta(days=max_days_old) > datetime.now()`. -/
def check_if_file_newer_than_x_days (path_exists : Bool) (mtime now : ℚ)
    (max_days_old : ℤ := 7) : Bool :=
  if path_exists = false then false
  else decide (mtime + secondsPerDay * (max_days_old : ℚ) > now)

/-- The refetch decision in `main`:
`not os.path.exists("words.txt") or not check_if_file_newer_than_x_days("words.txt")`.
The word list is fetched from the URI again exactly when this is `true`;
otherwise the existing cache file is read and reused. -/
def main_refetches (path_exists : Bool) (mtime now : ℚ) : Bool :=
  !path_exists || !(check_if_file_newer_than_x_days path_exists mtime now)

/-- C5 counterexample: with an existing cache file of modification time 0 and
`now` exactly 7 days later, `now ≤ T + 7 days` holds and `now > T + 7 days`
does not, yet the check returns `False` and `main` refetches — against the
claim that the check is `True` whenever `now ≤ T + 7 days` and that a refetch
happens only when `now > T + 7 days`. -/
theorem check_if_file_newer_boundary_cex :
    check_if_file_newer_than_x_days true 0 (7 * secondsPerDay) = false ∧
    main_refetches true 0 (7 * secondsPerDay) = true ∧
    ((7 * secondsPerDay : ℚ) ≤ 0 + secondsPerDay * ((7 : ℤ) : ℚ)) ∧
    ¬ ((7 * secondsPerDay : ℚ) > 0 + secondsPerDay * ((7 : ℤ) : ℚ)) := by
  have hc : check_if_file_newer_than_x_days true 0 (7 * secondsPerDay) = false := by
    simp only [check_if_file_newer_than_x_days, secondsPerDay]
    norm_num
  refine ⟨hc, ?_, by norm_num [secondsPerDay], by norm_num [secondsPerDay]⟩
  simp [main_refetches, hc]

/-- C5 (amended): for an existing cache file the default (7-day) check returns
`True` iff `now < T + 7 days` strictly, so `main` refetches iff
`now ≥ T + 7 days`; for a missing cache file the check returns `False` and
`main` always refetches. -/
theorem check_if_file_newer_than_x_days_ok (mtime now : ℚ) :
    (check_if_file_newer_than_x_days true mtime now = true ↔
      now < mtime + secondsPerDay * 7) ∧
    (main_refetches true mtime now = true ↔
      mtime + secondsPerDay * 7 ≤ now) ∧
    check_if_file_newer_than_x_days false mtime now = false ∧
    main_refetches false mtime now = true := by
  have hcast : ((( 7 : ℤ)) : ℚ) = (7 : ℚ) := by norm_num
  refine ⟨?_, ?_, by simp [check_if_file_newer_than_x_days], by simp [main_refetches]⟩
  · simp [check_if_file_newer_than_x_days, hcast]
  · simp [main_refetches, check_if_file_newer_than_x_days, hcast, not_lt]

/- ### Claim C7: reading the cache file -/

/-- The whitespace characters `str.strip()` removes (the ASCII ones; the word
list is ASCII). -/
def isPySpace (c : Char) : Bool :=
  c = ' ' ∨ c = '\t' ∨ c = '\n' ∨ c = '\r' ∨ c = '\x0b' ∨ c = '\x0c'

/-- Python `word.strip()` with no argument: remove the leading and the
trailing run of whitespace. -/
def pyStrip (s : PyStr) : PyStr :=
  ((s.dropWhile isPySpace).reverse.dropWhile isPySpace).reverse

/-- Python `file.readlines()` on the decoded text of a file: the segments
ending in a newline (newline kept), plus a final segment if the text does not
end in a newline; empty text has no lines.  `acc` holds the current line's
characters in reverse. -/
def readlinesAux : List Char → List Char → List PyStr
  | [], acc => if acc = [] then [] else [acc.reverse]
  | c :: rest, acc =>
    if c = '\n' then (acc.reverse ++ ['\n']) :: readlinesAux rest []
    else readlinesAux rest (c :: acc)

/-- Python `file.readlines()` of a whole text. -/
def readlines (text : List Char) : List PyStr := readlinesAux text []

/-- Python `get_words_from_file` on the decoded text of the cache file:
`[word.strip() for word in file.readlines()]`. -/
def get_words_from_file (text : List Char) : List PyStr :=
  (readlines text).map pyStrip

/-- Stripping only the TRAILING whitespace of a line, as the claim words it. -/
def pyStripTrailing (s : PyStr) : PyStr :=
  (s.reverse.dropWhile isPySpace).reverse

/-- The claim's reading of `get_words_from_file`: each line with only its
trailing whitespace stripped (for comparison against the code, which strips
both ends). -/
def get_words_from_file_claimed (text : List Char) : List PyStr :=
  (readlines text).map pyStripTrailing

/-- C7 counterexample: on the one-line file `" a\n"` the code returns `"a"`
(leading space removed as well), not the `" a"` the claim describes. -/
theorem get_words_from_file_cex :
    get_words_from_file [' ', 'a', '\n'] = [['a']] ∧
    get_words_from_file_claimed [' ', 'a', '\n'] = [[' ', 'a']] ∧
    get_words_from_file [' ', 'a', '\n'] ≠
      get_words_from_file_claimed [' ', 'a', '\n'] := by
  refine ⟨by decide, by decide, by decide⟩

theorem readlinesAux_flatten (text : List Char) :
    ∀ acc, (readlinesAux text acc).flatten = acc.reverse ++ text := by
  induction text with
  | nil =>
    intro acc
    by_cases h : acc = [] <;> simp [readlinesAux, h]
  | cons c rest ih =>
    intro acc
    by_cases h : c = '\n'
    · subst h
      simp [readlinesAux, ih]
    · simp [readlinesAux, h, ih]

theorem readlines_flatten (text : List Char) :
    (readlines text).flatten = text := by
  simpa using readlinesAux_flatten text []

theorem head_dropWhile_not (p : Char → Bool) (l : List Char) :
    ∀ c, (l.dropWhile p).head? = some c → p c = false := by
  induction l with
  | nil =>
    intro c h
    simp at h
  | cons x xs ih =>
    intro c h
    rw [List.dropWhile_cons] at h
    by_cases hx : p x
    · rw [if_pos hx] at h
      exact ih c h
    · rw [if_neg hx] at h
      simp only [List.head?_cons, Option.some.injEq] at h
      subst h
      simpa using hx

theorem dropWhile_eq_pyStrip_append (l : PyStr) :
    l.dropWhile isPySpace = pyStrip l ++
      ((l.dropWhile isPySpace).reverse.takeWhile isPySpace).reverse := by
  calc l.dropWhile isPySpace
      = ((l.dropWhile isPySpace).reverse).reverse := by rw [List.reverse_reverse]
    _ = ((l.dropWhile isPySpace).reverse.takeWhile isPySpace ++
          (l.dropWhile isPySpace).reverse.dropWhile isPySpace).reverse := by
        rw [List.takeWhile_append_dropWhile]
    _ = ((l.dropWhile isPySpace).reverse.dropWhile isPySpace).reverse ++
          ((l.dropWhile isPySpace).reverse.takeWhile isPySpace).reverse := by
        rw [List.reverse_append]
    _ = pyStrip l ++
          ((l.dropWhile isPySpace).reverse.takeWhile isPySpace).reverse := rfl

theorem pyStrip_decomp (l : PyStr) :
    ∃ pre suf, (∀ c ∈ pre, isPySpace c = true) ∧ (∀ c ∈ suf, isPySpace c = true) ∧
      l = pre ++ pyStrip l ++ suf := by
  refine ⟨l.takeWhile isPySpace,
    ((l.dropWhile isPySpace).reverse.takeWhile isPySpace).reverse,
    fun c hc => List.mem_takeWhile_imp hc,
    fun c hc => List.mem_takeWhile_imp (List.mem_reverse.mp hc), ?_⟩
  conv_lhs => rw [← List.takeWhile_append_dropWhile isPySpace l]
  rw [List.append_assoc]
  congr 1
  exact dropWhile_eq_pyStrip_append l

theorem pyStrip_head_not_space (l : PyStr) :
    ∀ c, (pyStrip l).head? = some c → isPySpace c = false := by
  intro c hc
  have h := dropWhile_eq_pyStrip_append l
  have hdw : (l.dropWhile isPySpace).head? = some c := by
    cases hs : pyStrip l with
    | nil =>
      rw [hs] at hc
      simp at hc
    | cons a as =>
      rw [hs] at hc h
      rw [h]
      simpa using hc
  exact head_dropWhile_not isPySpace l c hdw

theorem pyStrip_getLast_not_space (l : PyStr) :
    ∀ c, (pyStrip l).getLast? = some c → isPySpace c = false := by
  intro c hc
  have : ((l.dropWhile isPySpace).reverse.dropWhile isPySpace).head? = some c := by
    have := List.getLast?_reverse ((l.dropWhile isPySpace).reverse.dropWhile isPySpace)
    rw [← this]
    exact hc
  exact head_dropWhile_not isPySpace _ c this

/-- C7 (amended): reading the cache file yields one word per line, in file
order (the lines reassemble exactly to the file's text), each word being its
line with a leading AND a trailing run of whitespace removed (so blank lines
still yield empty strings, and nothing is deduplicated or filtered). -/
theorem get_words_from_file_ok (text : List Char) :
    (readlines text).flatten = text ∧
    get_words_from_file text = (readlines text).map pyStrip ∧
    (∀ l : PyStr, ∃ pre suf,
      (∀ c ∈ pre, isPySpace c = true) ∧ (∀ c ∈ suf, isPySpace c = true) ∧
      l = pre ++ pyStrip l ++ suf) ∧
    (∀ l : PyStr, ∀ c, (pyStrip l).head? = some c → isPySpace c = false) ∧
    (∀ l : PyStr, ∀ c, (pyStrip l).getLast? = some c → isPySpace c = false) :=
  ⟨readlines_flatten text, rfl, pyStrip_decomp, pyStrip_head_not_space,
    pyStrip_getLast_not_space⟩
